import Mathlib

/-!
Shallow embedding of the layout/extraction core of quest-pdf-tools
(src/doc_layout.py, src/pdf_processor.py, src/remove_irrelevant.py,
src/src/extractor_helper.py) and proofs about the spec's claims.

Text is modelled as `List Char` (Python `str`), machine floats for
coordinates/confidences as `ℚ` (the comparisons the code performs —
`confidence >= 0.2`, `confidence > 0.5`, `count > len(boxes) * 0.1`,
`y0 - previous_y > page_height * 0.1` — are exact at the inputs of
interest, so the rational idealisation is faithful), and the PDF
text-extraction capability (`page.get_text` + `process_page_text` from
the absent `utils` module, an external collaborator per §1 of the spec)
as the per-row rendered text carried in the row record.
-/

namespace QuestPdf

abbrev Str := List Char

/-- Detection record: one row of the detections CSV / one element dict in
`doc_layout.py` (`class_id`, `confidence`, `coordinates = [x0,y0,x1,y1]`). -/
structure Det where
  class_id : ℤ
  confidence : ℚ
  x0 : ℚ
  y0 : ℚ
  x1 : ℚ
  y1 : ℚ
  deriving DecidableEq, Repr

/-! ## Redaction Applier (`PDFProcessor.process_detections`,
src/pdf_processor.py lines 95–129 = src/remove_irrelevant.py lines 47–72) -/

/-- embeds `int(self.page_width * 300 / 72)` (Python `int()` truncation;
page dimensions are nonnegative, so truncation is `Int.floor`). -/
def imageDim (d : ℚ) : ℤ := ⌊d * 300 / 72⌋

/-- embeds `PDFProcessor.scale_coordinates`: coordinates are scaled from
300-DPI image space to PDF points. -/
def scale_coordinates (pw ph : ℚ) (iw ih : ℤ) (c : ℚ × ℚ × ℚ × ℚ) :
    ℚ × ℚ × ℚ × ℚ :=
  (c.1 * pw / iw, c.2.1 * ph / ih, c.2.2.1 * pw / iw, c.2.2.2 * ph / ih)

/-- embeds `PDFProcessor.process_detections`: a detection row yields a
redaction rectangle exactly when `class_id == 2 and confidence >= 0.2`.
A zero image dimension causes a `ZeroDivisionError` inside
`scale_coordinates`, caught by the surrounding `except`, so the row then
yields no rectangle. -/
def process_detections (pw ph : ℚ) (r : Det) : List (ℚ × ℚ × ℚ × ℚ) :=
  let iw := imageDim pw
  let ih := imageDim ph
  if iw = 0 ∨ ih = 0 then []
  else if r.class_id = 2 ∧ r.confidence ≥ 1/5 then
    [scale_coordinates pw ph iw ih (r.x0, r.y0, r.x1, r.y1)]
  else []

/-! ## DocumentRecord persistence (`_save_detection_results`,
src/doc_layout.py lines 70–94) -/

/-- one persisted CSV row of the DocumentRecord. -/
structure SavedRow where
  page_number : ℕ
  order : ℕ
  class_id : ℤ
  confidence : ℚ
  x0 : ℚ
  y0 : ℚ
  x1 : ℚ
  y1 : ℚ
  deriving DecidableEq, Repr

/-- embeds the row-writing loop of `_save_detection_results` for one page:
`for order, detection in enumerate(detections, start=1): writer.writerow(...)`. -/
def saved_rows (page : ℕ) (ds : List Det) : List SavedRow :=
  ds.enum.map fun p =>
    { page_number := page, order := p.1 + 1, class_id := p.2.class_id,
      confidence := p.2.confidence, x0 := p.2.x0, y0 := p.2.y0,
      x1 := p.2.x1, y1 := p.2.y1 }

/-! ## Text extraction (`PDFProcessor.extract_text`,
src/pdf_processor.py lines 352–460) -/

/-- a detection row together with the text the page capability renders for
its rectangle (the result of `get_text(clip=...)` fed through
`process_page_text`). -/
structure TRow where
  class_id : ℤ
  confidence : ℚ
  text : Str
  deriving DecidableEq, Repr

/-- embeds the row filter of `extract_text` (line 393):
`int(row['class_id']) in [0, 1] and float(row['confidence']) > 0.5`. -/
def textRowKeep (r : TRow) : Bool :=
  (r.class_id = 0 ∨ r.class_id = 1 : Bool) && (r.confidence > 1/2 : Bool)

/-- embeds `rows = [row for row in csv_reader if ...]` of `extract_text`. -/
def extract_text_rows (rows : List TRow) : List TRow :=
  rows.filter textRowKeep

/-- embeds `next_text and next_text[0].islower()`: the empty string does
not start with a lowercase letter. -/
def startsLower : Str → Bool
  | [] => false
  | c :: _ => c.isLower

/-- the separator `extract_text` appends after the current block, chosen
from the classes of the current and next row and the next row's text. -/
def pySep (c₁ : ℤ) (t₂ : Str) (c₂ : ℤ) : Str :=
  if c₁ = c₂ then (if startsLower t₂ then [' '] else ['\n'])
  else ['\n', '\n']

/-- embeds the assembly loop of `extract_text` (lines 396–451) over the
filtered rows, with each row abstracted to `(class_id, rendered text)`:
empty blocks are skipped, a non-last block is emitted followed by the
separator determined against the next row, the last block is emitted bare,
and the pieces are concatenated (`"".join`). -/
def assemble : List (ℤ × Str) → Str
  | [] => []
  | [(_, t)] => if t = [] then [] else t
  | (c₁, t₁) :: (c₂, t₂) :: rest =>
    if t₁ = [] then assemble ((c₂, t₂) :: rest)
    else (t₁ ++ pySep c₁ t₂ c₂) ++ assemble ((c₂, t₂) :: rest)

/-- embeds `extract_text` end to end over typed rows: filter to
Title/PlainText rows above confidence 0.5, then assemble their rendered
texts in order. -/
def extract_text (rows : List TRow) : Str :=
  assemble ((extract_text_rows rows).map fun r => (r.class_id, r.text))

/-! ## Reading-Order Reconstructor (`PDFLayoutProcessor._reorder_detections`
and helpers, src/doc_layout.py lines 97–215) -/

/-- stable ascending insertion by `y0`: the new element goes after all
earlier elements whose key is not greater, matching Python's stable
`sorted(..., key=lambda elem: elem['coordinates'][1])`. -/
def insertByY : List Det → Det → List Det
  | [], e => [e]
  | f :: fs, e => if e.y0 < f.y0 then e :: f :: fs else f :: insertByY fs e

/-- embeds `_sort_single_column`: stable sort by `y0`. -/
def sort_single_column (es : List Det) : List Det :=
  es.foldl insertByY []

/-- embeds `_sort_two_columns`: split on `x0 < middle_line`, sort each half
by `y0`, left first. -/
def sort_two_columns (es : List Det) (mid : ℚ) : List Det :=
  sort_single_column (es.filter fun e => e.x0 < mid) ++
    sort_single_column (es.filter fun e => ¬ e.x0 < mid)

/-- embeds `_sort_three_columns`: split on `x0` against the two lines, sort
each part by `y0`, concatenate left, middle, right. -/
def sort_three_columns (es : List Det) (lline rline : ℚ) : List Det :=
  sort_single_column (es.filter fun e => e.x0 < lline) ++
    sort_single_column (es.filter fun e => ¬ e.x0 < lline ∧ e.x0 < rline) ++
    sort_single_column (es.filter fun e => ¬ e.x0 < lline ∧ ¬ e.x0 < rline)

/-- embeds the section-building walk of `_process_irregular_layout`:
`previous_y` starts at `-inf` (modelled as `none`, for which the gap test is
always true), a gap strictly greater than a tenth of the page height closes
the current section. -/
def splitSectionsAux (H : ℚ) :
    List Det → List (List Det) → List Det → Option ℚ → List (List Det)
  | [], secs, cur, _ => if cur = [] then secs else secs ++ [cur]
  | e :: rest, secs, cur, prevY =>
    let newSec : Bool := match prevY with
      | none => true
      | some py => e.y0 - py > H / 10
    if newSec then
      if cur = [] then splitSectionsAux H rest secs [e] (some e.y0)
      else splitSectionsAux H rest (secs ++ [cur]) [e] (some e.y0)
    else splitSectionsAux H rest secs (cur ++ [e]) (some e.y0)

/-- embeds `_process_irregular_layout`: sort by `y0`, split into vertical
sections, sort each section by `y0` again, concatenate. -/
def process_irregular_layout (es : List Det) (H : ℚ) : List Det :=
  (splitSectionsAux H (sort_single_column es) [] [] none).flatMap
    sort_single_column

/-- embeds one bin count of `np.histogram(x_coords, bins=20, range=(0, W))`:
bin `i < 19` is the half-open interval `[i*W/20, (i+1)*W/20)`, the last bin
is closed, values outside `[0, W]` are not counted. -/
def binCount (xs : List ℚ) (W : ℚ) (i : ℕ) : ℕ :=
  (xs.filter fun x =>
    if i = 19 then decide (19 * W / 20 ≤ x ∧ x ≤ W)
    else decide ((i : ℚ) * W / 20 ≤ x ∧ x < ((i : ℚ) + 1) * W / 20)).length

/-- embeds `peaks = [i for i, count in enumerate(histogram) if count >
len(boxes) * 0.1]`; the float test `count > n * 0.1` is exact as the
rational test `10 * count > n` for integer counts. -/
def peakCount (es : List Det) (W : ℚ) : ℕ :=
  ((List.range 20).filter fun i =>
    10 * binCount (es.map (·.x0)) W i > es.length).length

/-- embeds `_detect_columns`, including its unreachable final
`else: return 1`. -/
def detect_columns (es : List Det) (W : ℚ) : ℕ :=
  let p := peakCount es W
  if p ≤ 1 then 1
  else if p = 2 then 2
  else if p ≥ 3 then 3
  else 1

/-- embeds `np.max(boxes[:, 2])`, the page width used by
`_reorder_detections` (the empty case never arises there). -/
def maxX1 : List Det → ℚ
  | [] => 0
  | e :: rest => rest.foldl (fun a f => max a f.x1) e.x1

/-- embeds `np.max(boxes[:, 3])`, the page height used by
`_reorder_detections`. -/
def maxY1 : List Det → ℚ
  | [] => 0
  | e :: rest => rest.foldl (fun a f => max a f.y1) e.y1

/-- the column count `_reorder_detections` computes for a page. -/
def num_columns (es : List Det) : ℕ := detect_columns es (maxX1 es)

/-- embeds `_reorder_detections`: dispatch on the detected column count,
with the irregular/sectioned fallback in the final `else`. -/
def reorder_detections (es : List Det) : List Det :=
  if es = [] then es
  else
    let W := maxX1 es
    let n := num_columns es
    if n = 1 then sort_single_column es
    else if n = 2 then sort_two_columns es (W / 2)
    else if n = 3 then sort_three_columns es (W / 3) (2 * W / 3)
    else process_irregular_layout es (maxY1 es)

/-! ## Section-extraction helpers (src/src/extractor_helper.py) -/

/-- characters of a string literal, as the `List Char` text model. -/
def strL (s : String) : Str := s.data

/-- Python's whitespace test for `str.strip()` (ASCII range; the inputs of
interest are ASCII). -/
def pyIsSpace (c : Char) : Bool :=
  c = ' ' || c = '\t' || c = '\n' || c = '\r' ||
    c = Char.ofNat 11 || c = Char.ofNat 12

/-- embeds Python `str.strip()`: drop leading and trailing whitespace. -/
def pyStrip (s : Str) : Str :=
  ((s.dropWhile pyIsSpace).reverse.dropWhile pyIsSpace).reverse

/-- embeds Python `text.split('\n')` (never returns an empty list; an
empty text yields one empty line). -/
def splitNl : Str → List Str
  | [] => [[]]
  | c :: rest =>
    if c = '\n' then [] :: splitNl rest
    else
      match splitNl rest with
      | [] => [[c]]
      | l :: ls => (c :: l) :: ls

/-- embeds Python `'\n'.join(lines)`. -/
def joinNl : List Str → Str
  | [] => []
  | [l] => l
  | l :: ls => l ++ '\n' :: joinNl ls

/-- embeds Python `list.index(p)`: index of the first occurrence
(callers only use it when `p` is in the list). -/
def firstIndex {α : Type} [DecidableEq α] : List α → α → ℕ
  | [], _ => 0
  | q :: rest, p => if q = p then 0 else firstIndex rest p + 1

/-- Modelled from the spec: the `sections` module providing the heading
term families (`from sections import *` in extractor_helper.py) is absent
from the repository sources. Per the spec's section taxonomy (§6) and its
scenarios (§8, headings "Methods", "Results", "References", "Conclusion",
"Discussion"), each family is modelled as the singleton canonical term. -/
def METHODS_TERMS : List Str := [strL "Methods"]

/-- Modelled from the spec: results-section heading terms. -/
def RESULTS_TERMS : List Str := [strL "Results"]

/-- Modelled from the spec: discussion-section heading terms. -/
def DISCUSSION_TERMS : List Str := [strL "Discussion"]

/-- Modelled from the spec: references-section heading terms. -/
def REFERENCES_TERMS : List Str := [strL "References"]

/-- Modelled from the spec: conclusion-section heading terms. -/
def CONCLUSION_TERMS : List Str := [strL "Conclusion"]

/-- Modelled from the spec: the union of all known heading term families
(`all_section_terms` in extractor_helper.py). -/
def all_section_terms : List Str :=
  METHODS_TERMS ++ RESULTS_TERMS ++ DISCUSSION_TERMS ++ REFERENCES_TERMS ++
    CONCLUSION_TERMS

/-- the keep condition of the comprehension in `remove_duplicate_pargraphs`:
a line is kept when it is blank after stripping, or its stripped text is a
known section term, or it is the first occurrence of its exact text. -/
def keepLine (terms : List Str) (L : List Str) (i : ℕ) (p : Str) : Bool :=
  (pyStrip p = [] ∨ pyStrip p ∈ terms ∨ firstIndex L p = i : Bool)

/-- the line-level body of `remove_duplicate_pargraphs`. -/
def removeDupLines (terms : List Str) (L : List Str) : List Str :=
  (L.enum.filter fun ip => keepLine terms L ip.1 ip.2).map Prod.snd

/-- embeds `remove_duplicate_pargraphs` parameterized by the term list:
split on newlines, keep blank lines, section-term lines, and first
occurrences, join back with newlines. -/
def removeDupText (terms : List Str) (text : Str) : Str :=
  joinNl (removeDupLines terms (splitNl text))

/-- embeds `remove_duplicate_pargraphs` with the module-level
`all_section_terms`. -/
def remove_duplicate_pargraphs (text : Str) : Str :=
  removeDupText all_section_terms text

/-! ## Regex engine

A small backtracking matcher with Python `re` semantics for the pattern
fragments `extract_section` compiles: ordered alternation, greedy
repetition (repetition only over single-character classes, as in the
source patterns, so matching terminates structurally), literals under
`re.IGNORECASE`, and the zero-width word boundary `\b`. The previous
character is threaded through so `\b` can inspect it. -/

/-- regular-expression shapes used by the section patterns. -/
inductive RE where
  | eps : RE
  | cls (p : Char → Bool) : RE
  | seq (a b : RE) : RE
  | alt (a b : RE) : RE
  | starCls (p : Char → Bool) : RE
  | wb : RE

/-- Python `\w`: word characters (ASCII range). -/
def isWordChar (c : Char) : Bool := c.isAlphanum || c = '_'

/-- word test on an optional character (`none` = text edge, not a word). -/
def wordOpt : Option Char → Bool
  | none => false
  | some c => isWordChar c

/-- all ways a greedy `p*` can split the input, longest first; each result
is the last consumed character (for `\b`) and the remaining suffix. -/
def starRuns (p : Char → Bool) : Option Char → Str → List (Option Char × Str)
  | prev, [] => [(prev, [])]
  | prev, c :: rest =>
    if p c then starRuns p (some c) rest ++ [(prev, c :: rest)]
    else [(prev, c :: rest)]

/-- all ways `r` can match a prefix of the input, in Python backtracking
preference order; the head is the match Python commits to. -/
def RE.runs : RE → Option Char → Str → List (Option Char × Str)
  | .eps, prev, s => [(prev, s)]
  | .cls p, _, s =>
    match s with
    | [] => []
    | c :: rest => if p c then [(some c, rest)] else []
  | .seq a b, prev, s =>
    (a.runs prev s).flatMap fun pr => b.runs pr.1 pr.2
  | .alt a b, prev, s => a.runs prev s ++ b.runs prev s
  | .starCls p, prev, s => starRuns p prev s
  | .wb, prev, s =>
    if wordOpt prev != wordOpt s.head? then [(prev, s)] else []

/-- length of the match `r` commits to at this position, if any. -/
def matchLenAt (r : RE) (prev : Option Char) (s : Str) : Option ℕ :=
  (r.runs prev s).head?.map fun pr => s.length - pr.2.length

/-- scan for the leftmost match, Python `re.search`: `pos` is the global
offset of `s`, `prev` the character before it. -/
def searchAux (r : RE) (prev : Option Char) (s : Str) (pos : ℕ) :
    Option (ℕ × ℕ) :=
  match matchLenAt r prev s with
  | some n => some (pos, pos + n)
  | none =>
    match s with
    | [] => none
    | c :: rest => searchAux r (some c) rest (pos + 1)

/-- embeds `re.search(pattern, s)`: leftmost match as `(start, end)`. -/
def reSearch (r : RE) (s : Str) : Option (ℕ × ℕ) := searchAux r none s 0

/-- the character before a global position, if any. -/
def charBefore (text : Str) (pos : ℕ) : Option Char :=
  if pos = 0 then none else text[pos - 1]?

/-- iterate `re.finditer`: after a match scanning resumes at its end
(one past its start for a zero-width match); the fuel bounds the number of
matches and is never exhausted for the section patterns, which always
consume at least one character. -/
def findIterAux (r : RE) (text : Str) : ℕ → ℕ → List (ℕ × ℕ)
  | 0, _ => []
  | fuel + 1, pos =>
    match searchAux r (charBefore text pos) (text.drop pos) pos with
    | none => []
    | some (st, en) =>
      (st, en) :: findIterAux r text fuel (if st < en then en else st + 1)

/-- embeds `re.finditer(pattern, text)`: all non-overlapping matches. -/
def reFindIter (r : RE) (text : Str) : List (ℕ × ℕ) :=
  findIterAux r text (text.length + 1) 0

/-! ## Section patterns (`extract_section`, extractor_helper.py 72–121) -/

/-- literal character. -/
def litc (c : Char) : RE := .cls fun d => d = c

/-- case-insensitive literal string (all section patterns are compiled
with `re.IGNORECASE`; ASCII case folding). -/
def litCI (t : Str) : RE :=
  t.foldr (fun c r => .seq (.cls fun d => d.toLower = c.toLower) r) .eps

/-- ordered alternation of a pattern list; the empty list is the empty
group `()` produced by `'|'.join([])`, which matches the empty string. -/
def altList : List RE → RE
  | [] => .eps
  | [r] => r
  | r :: rest => .alt r (altList rest)

/-- sequence of a pattern list. -/
def seqList : List RE → RE
  | [] => .eps
  | [r] => r
  | r :: rest => .seq r (seqList rest)

/-- `r?` (greedy). -/
def reOpt (r : RE) : RE := .alt r .eps

/-- `p+` over a character class. -/
def rePlus (p : Char → Bool) : RE := .seq (.cls p) (.starCls p)

/-- `\s*`. -/
def sStar : RE := .starCls pyIsSpace

/-- `\n`. -/
def nlCls : RE := litc '\n'

/-- `[\n:]`. -/
def nlOrColon : RE := .cls fun c => c = '\n' || c = ':'

/-- `\d`. -/
def digitCls : Char → Bool := Char.isDigit

/-- `[IVXivx]`. -/
def romanCls : Char → Bool := fun c =>
  c = 'I' || c = 'V' || c = 'X' || c = 'i' || c = 'v' || c = 'x'

/-- spaced-letter variant of a term, `' '.join(term)`. -/
def spacedOf (t : Str) : Str := t.intersperse ' '

/-- pattern 1, regular headings: `\n\s*(term|…)\s*[\n:]`. -/
def patRegular (ts : List Str) : RE :=
  seqList [nlCls, sStar, altList (ts.map litCI), sStar, nlOrColon]

/-- pattern 2, spaced letters: `\n\s*(M E T H O D S|…)\s*[\n:]`. -/
def patSpaced (ts : List Str) : RE :=
  seqList [nlCls, sStar, altList (ts.map fun t => litCI (spacedOf t)),
    sStar, nlOrColon]

/-- the numbering alternatives `\d+\.|\[?\d+\]?\.?|[IVXivx]+\.`. -/
def numPrefix : RE :=
  altList [.seq (rePlus digitCls) (litc '.'),
    seqList [reOpt (litc '['), rePlus digitCls, reOpt (litc ']'),
      reOpt (litc '.')],
    .seq (rePlus romanCls) (litc '.')]

/-- pattern 3, numbered headings:
`\n\s*(?:\d+\.|\[?\d+\]?\.?|[IVXivx]+\.)\s*(term|…)\s*[\n:]`. -/
def patNumbered (ts : List Str) : RE :=
  seqList [nlCls, sStar, numPrefix, sStar, altList (ts.map litCI), sStar,
    nlOrColon]

/-- pattern 4, pipe-numbered headings:
`\n\s*(?:\d+\s*\|\s*)(term|…)\s*[\n:]`. -/
def patPipe (ts : List Str) : RE :=
  seqList [nlCls, sStar, rePlus digitCls, sStar, litc '|', sStar,
    altList (ts.map litCI), sStar, nlOrColon]

/-- pattern 5, inline headings: `\n\s*(term|…)\s*:([^\n]*)`. -/
def patInline (ts : List Str) : RE :=
  seqList [nlCls, sStar, altList (ts.map litCI), sStar, litc ':',
    .starCls fun c => c != '\n']

/-- the five heading pattern families for the target section terms. -/
def sectionPatterns (ts : List Str) : List RE :=
  [patRegular ts, patSpaced ts, patNumbered ts, patPipe ts, patInline ts]

/-- the boundary alternatives for the other known terms: for each term,
`\bterm\b` then the spaced variant `\bt e r m\b`. -/
def nextTermAlts (others : List Str) : List RE :=
  others.flatMap fun t =>
    [seqList [.wb, litCI t, .wb], seqList [.wb, litCI (spacedOf t), .wb]]

/-- the optional numbering `(?:\d+\.|\[?\d+\]?\.?|[IVXivx]+\.|\d+\s*\|\s*)?`
of the boundary patterns. -/
def optNumPrefix : RE :=
  reOpt (altList [.seq (rePlus digitCls) (litc '.'),
    seqList [reOpt (litc '['), rePlus digitCls, reOpt (litc ']'),
      reOpt (litc '.')],
    .seq (rePlus romanCls) (litc '.'),
    seqList [rePlus digitCls, sStar, litc '|', sStar]])

/-- `next_section_pattern`: a boundary heading on its own line. -/
def nextSectionPattern (others : List Str) : RE :=
  seqList [nlCls, sStar, optNumPrefix, sStar, altList (nextTermAlts others),
    sStar, nlOrColon]

/-- `next_inline_pattern`: a boundary heading terminated by a colon. -/
def nextInlinePattern (others : List Str) : RE :=
  seqList [nlCls, sStar, optNumPrefix, sStar, altList (nextTermAlts others),
    sStar, litc ':']

/-! ## extract_section (extractor_helper.py 30–173) -/

/-- stable insertion by match start, embedding the stable
`section_matches.sort(key=lambda x: x[0])`. -/
def insertByStart : List (ℕ × ℕ) → (ℕ × ℕ) → List (ℕ × ℕ)
  | [], m => [m]
  | x :: xs, m => if m.1 < x.1 then m :: x :: xs else x :: insertByStart xs m

/-- stable sort by match start. -/
def sortByStart (ms : List (ℕ × ℕ)) : List (ℕ × ℕ) :=
  ms.foldl insertByStart []

/-- all heading occurrences of the five patterns, sorted by position. -/
def sectionMatches (text : Str) (ts : List Str) : List (ℕ × ℕ) :=
  sortByStart ((sectionPatterns ts).flatMap fun p => reFindIter p text)

/-- Python slice `text[a:b]`. -/
def pySlice (text : Str) (a b : ℕ) : Str := (text.drop a).take (b - a)

/-- the skip test of the occurrence loop: search the 150-character window
after the match for a boundary heading (line form, then inline form) and
discard the occurrence when one starts within the first 50 characters. -/
def discardCheck (nsp nip : RE) (text : Str) (m : ℕ × ℕ) : Bool :=
  let window := (text.drop m.2).take 150
  (match reSearch nsp window with
   | some p => decide (p.1 < 50)
   | none => false) ||
  (match reSearch nip window with
   | some p => decide (p.1 < 50)
   | none => false)

/-- the end boundary of an occurrence: the nearest boundary-heading match
in the remaining text (either form), ignoring matches at offset 0, or
`none` for document end. -/
def resolveEnd (nsp nip : RE) (text : Str) (m : ℕ × ℕ) : Option ℕ :=
  let remaining := text.drop m.2
  let nsm : Option ℕ :=
    match reSearch nsp remaining with
    | some p => if p.1 = 0 then none else some p.1
    | none => none
  let nim : Option ℕ :=
    match reSearch nip remaining with
    | some p => if p.1 = 0 then none else some p.1
    | none => none
  match nsm, nim with
  | some a, some b => some (m.2 + min a b)
  | some a, none => some (m.2 + a)
  | none, some b => some (m.2 + b)
  | none, none => none

/-- the candidate span of an occurrence, keyword included, stripped. -/
def spanOf (nsp nip : RE) (text : Str) (m : ℕ × ℕ) : Str :=
  match resolveEnd nsp nip text m with
  | some e => pyStrip (pySlice text m.1 e)
  | none => pyStrip (text.drop m.1)

/-- the occurrence loop of `extract_section`: discarded occurrences
contribute nothing (`continue`), the others append their span. -/
def buildCandidates (nsp nip : RE) (text : Str) : List (ℕ × ℕ) → List Str
  | [] => []
  | m :: rest =>
    if discardCheck nsp nip text m then buildCandidates nsp nip text rest
    else spanOf nsp nip text m :: buildCandidates nsp nip text rest

/-- Python `max(sections, key=len)`: first element of maximal length. -/
def maxByLen : List Str → Str
  | [] => []
  | s :: rest =>
    rest.foldl (fun acc x => if x.length > acc.length then x else acc) s

/-- `[term for term in all_section_terms if term not in section_terms]`. -/
def othersOf (ts allTs : List Str) : List Str :=
  allTs.filter fun t => ¬ t ∈ ts

/-- the candidate spans `extracted_sections` of one extraction call. -/
def candidatesOf (text : Str) (ts allTs : List Str) : List Str :=
  buildCandidates (nextSectionPattern (othersOf ts allTs))
    (nextInlinePattern (othersOf ts allTs)) text (sectionMatches text ts)

/-- embeds `extract_section(text, section_terms)` with the known-term list
as a parameter: collect heading occurrences, drop degenerate ones, resolve
each end boundary, return the longest candidate or the empty string. -/
def extract_section (text : Str) (ts allTs : List Str) : Str :=
  let cands := candidatesOf text ts allTs
  if cands = [] then [] else maxByLen cands

/-- Python `text.find(pat)`: index of the first occurrence, if any. -/
def pyFind : Str → Str → Option ℕ
  | [], pat => if pat.isPrefixOf ([] : Str) then some 0 else none
  | c :: t, pat =>
    if pat.isPrefixOf (c :: t) then some 0
    else (pyFind t pat).map (· + 1)

/-- embeds `remove_references_section`: locate the references span via
`extract_section`, then delete its first occurrence from the text. -/
def remove_references_section (text : Str) : Str :=
  let refs := extract_section text REFERENCES_TERMS all_section_terms
  if refs = [] then text
  else
    match pyFind text refs with
    | none => text
    | some i => text.take i ++ text.drop (i + refs.length)

/-- concrete single detection used to exercise the single-column branch. -/
def wDet : Det := ⟨1, 9/10, 0, 0, 100, 50⟩

/-- concrete Abandon detection at exactly the 0.2 threshold. -/
def rIncl : Det := ⟨2, 1/5, 10, 10, 20, 20⟩

/-- concrete Abandon detection just below the 0.2 threshold. -/
def rExcl : Det := ⟨2, 1999/10000, 10, 10, 20, 20⟩

/-- concrete PlainText row at confidence exactly 0.5. -/
def rowHalf : TRow := ⟨1, 1/2, ['a']⟩

/-- concrete text with a duplicated body line after a Methods heading. -/
def c2text : Str := strL "\nMethods\nWe did X.\nWe did X.\n"

/-- concrete text with one Methods heading and a body. -/
def c4text : Str := strL "\nMethods\nBody."

/-! # Theorems -/

/-- the detected column count is always 1, 2 or 3: the peak count is a
natural number, and the `<=1 / ==2 / >=3` chain is exhaustive. -/
lemma num_columns_cases (es : List Det) :
    num_columns es = 1 ∨ num_columns es = 2 ∨ num_columns es = 3 := by
  unfold num_columns detect_columns
  set p := peakCount es (maxX1 es) with hp
  by_cases h1 : p ≤ 1
  · simp [h1]
  · by_cases h2 : p = 2
    · simp [h1, h2]
    · have h3 : p ≥ 3 := by omega
      simp [h1, h2, h3]

/-- C1 (amended): `_reorder_detections` selects its strategy from the
x0-histogram peak count — 0–1 peaks give the single-column sort, 2 peaks
the two-column sort, ≥3 peaks the three-column sort; since every peak
count falls into one of these cases, the histogram always resolves to 1–3
columns and the irregular/sectioned fallback branch is unreachable. -/
theorem reorder_strategy_mapping (es : List Det) (h : es ≠ []) :
    (peakCount es (maxX1 es) ≤ 1 →
      num_columns es = 1 ∧ reorder_detections es = sort_single_column es) ∧
    (peakCount es (maxX1 es) = 2 →
      num_columns es = 2 ∧
        reorder_detections es = sort_two_columns es (maxX1 es / 2)) ∧
    (3 ≤ peakCount es (maxX1 es) →
      num_columns es = 3 ∧
        reorder_detections es =
          sort_three_columns es (maxX1 es / 3) (2 * maxX1 es / 3)) := by
  refine ⟨fun hp => ?_, fun hp => ?_, fun hp => ?_⟩
  · have hn : num_columns es = 1 := by
      unfold num_columns detect_columns; simp [hp]
    exact ⟨hn, by unfold reorder_detections; simp [h, hn]⟩
  · have hn : num_columns es = 2 := by
      unfold num_columns detect_columns; simp [hp]
    exact ⟨hn, by unfold reorder_detections; simp [h, hn]⟩
  · have h1 : ¬ peakCount es (maxX1 es) ≤ 1 := by omega
    have h2 : peakCount es (maxX1 es) ≠ 2 := by omega
    have hn : num_columns es = 3 := by
      unfold num_columns detect_columns; simp [h1, h2, hp]
    exact ⟨hn, by unfold reorder_detections; simp [h, hn]⟩

/-- witness for `reorder_strategy_mapping`: a one-element page has a
single histogram peak and is sorted as a single column. -/
theorem reorder_strategy_mapping_w :
    peakCount [wDet] (maxX1 [wDet]) ≤ 1 ∧
      num_columns [wDet] = 1 ∧
      reorder_detections [wDet] = sort_single_column [wDet] := by
  have h20 : List.range 20 =
      [0, 1, 2, 3, 4, 5, 6, 7, 8, 9, 10, 11, 12, 13, 14, 15, 16, 17, 18,
        19] := rfl
  have hp : peakCount [wDet] (maxX1 [wDet]) ≤ 1 := by
    norm_num [peakCount, binCount, h20, wDet, maxX1, List.filter]
  exact ⟨hp, (reorder_strategy_mapping [wDet] (by simp)).1 hp⟩

/-- C1 counterexample: no nonempty element list ever reaches the
irregular/sectioned fallback, because `_detect_columns` always returns 1,
2 or 3 — refuting the claim that some input takes the fallback branch. -/
theorem reorder_irregular_unreachable :
    ¬ ∃ es : List Det, es ≠ [] ∧
      num_columns es ≠ 1 ∧ num_columns es ≠ 2 ∧ num_columns es ≠ 3 := by
  rintro ⟨es, -, h1, h2, h3⟩
  rcases num_columns_cases es with h | h | h <;> simp_all

/-- C3: a detection row yields a redaction rectangle iff its class is
Abandon (2) and its confidence is at least 0.2; confidence exactly 0.2 is
included, anything below excluded (see the witness for 0.2 and 0.1999). -/
theorem process_detections_threshold (pw ph : ℚ) (r : Det)
    (hw : imageDim pw ≠ 0) (hh : imageDim ph ≠ 0) :
    process_detections pw ph r ≠ [] ↔
      r.class_id = 2 ∧ 1/5 ≤ r.confidence := by
  have hne : ¬ (imageDim pw = 0 ∨ imageDim ph = 0) := by tauto
  by_cases hc : r.class_id = 2 ∧ 1/5 ≤ r.confidence
  · have hval : process_detections pw ph r =
        [scale_coordinates pw ph (imageDim pw) (imageDim ph)
          (r.x0, r.y0, r.x1, r.y1)] := by
      simp only [process_detections]
      rw [if_neg hne, if_pos hc]
    rw [hval]
    exact ⟨fun _ => hc, fun _ => by simp⟩
  · have hval : process_detections pw ph r = [] := by
      simp only [process_detections]
      rw [if_neg hne, if_neg hc]
    rw [hval]
    exact ⟨fun hfalse => absurd rfl hfalse, fun hx => absurd hx hc⟩

/-- witness for `process_detections_threshold` on a US-letter page: the
Abandon row at confidence exactly 0.2 is selected, the one at 0.1999 is
not. -/
theorem process_detections_threshold_w :
    process_detections 612 792 rIncl ≠ [] ∧
      process_detections 612 792 rExcl = [] := by
  constructor
  · exact (process_detections_threshold 612 792 rIncl
      (by norm_num [imageDim]) (by norm_num [imageDim])).mpr
      (by norm_num [rIncl])
  · by_contra hne
    exact absurd ((process_detections_threshold 612 792 rExcl
      (by norm_num [imageDim]) (by norm_num [imageDim])).mp hne)
      (by norm_num [rExcl])

/-- C8: for a page with N elements, the persisted `order` values are
exactly 1..N in reading sequence — equal to `range' 1 N`, strictly
increasing, and containing k iff `1 ≤ k ≤ N` (no gaps or repeats). -/
theorem saved_rows_order_total (page : ℕ) (ds : List Det) :
    ((saved_rows page ds).map SavedRow.order) = List.range' 1 ds.length ∧
    List.Pairwise (· < ·) ((saved_rows page ds).map SavedRow.order) ∧
    ∀ k : ℕ, k ∈ (saved_rows page ds).map SavedRow.order ↔
      1 ≤ k ∧ k ≤ ds.length := by
  have hmap : ((saved_rows page ds).map SavedRow.order) =
      List.range' 1 ds.length := by
    unfold saved_rows
    rw [List.map_map]
    have h1 : (SavedRow.order ∘ fun p : ℕ × Det =>
        ({ page_number := page, order := p.1 + 1, class_id := p.2.class_id,
           confidence := p.2.confidence, x0 := p.2.x0, y0 := p.2.y0,
           x1 := p.2.x1, y1 := p.2.y1 } : SavedRow)) =
        (fun n : ℕ => n + 1) ∘ Prod.fst := rfl
    rw [h1, ← List.map_map, List.enum_map_fst, List.range'_eq_map_range]
    exact List.map_congr_left fun a _ => Nat.add_comm a 1
  refine ⟨hmap, ?_, ?_⟩
  · rw [hmap]; exact List.pairwise_lt_range' 1 ds.length
  · intro k; rw [hmap, List.mem_range'_1]; omega

/-- C10: a row survives the text-extraction filter iff it is in the input,
its class is Title (0) or PlainText (1), and its confidence is strictly
greater than 0.5 — so confidence exactly 0.5 is excluded (witness). -/
theorem extract_text_row_filter (rows : List TRow) (r : TRow) :
    r ∈ extract_text_rows rows ↔
      r ∈ rows ∧ (r.class_id = 0 ∨ r.class_id = 1) ∧
        1/2 < r.confidence := by
  simp [extract_text_rows, textRowKeep, List.mem_filter, and_assoc]

/-- witness for `extract_text_row_filter`: a PlainText row with confidence
exactly 0.5 does not contribute to the extracted text. -/
theorem extract_text_row_filter_w :
    rowHalf ∉ extract_text_rows [rowHalf] := fun hmem =>
  absurd ((extract_text_row_filter [rowHalf] rowHalf).mp hmem).2.2
    (by norm_num [rowHalf])

/-- C6: in the text-assembly loop, a rendered block followed by another
row is emitted with a single space when the classes are equal and the next
row's text starts with a lowercase letter, with a single newline when the
classes are equal otherwise, and with a blank line (two newlines) when the
classes differ. -/
theorem assemble_adjacent_sep (c₁ : ℤ) (t₁ : Str) (c₂ : ℤ) (t₂ : Str)
    (rest : List (ℤ × Str)) (h : t₁ ≠ []) :
    (c₁ = c₂ → startsLower t₂ = true →
      assemble ((c₁, t₁) :: (c₂, t₂) :: rest) =
        t₁ ++ [' '] ++ assemble ((c₂, t₂) :: rest)) ∧
    (c₁ = c₂ → startsLower t₂ = false →
      assemble ((c₁, t₁) :: (c₂, t₂) :: rest) =
        t₁ ++ ['\n'] ++ assemble ((c₂, t₂) :: rest)) ∧
    (c₁ ≠ c₂ →
      assemble ((c₁, t₁) :: (c₂, t₂) :: rest) =
        t₁ ++ ['\n', '\n'] ++ assemble ((c₂, t₂) :: rest)) := by
  refine ⟨fun he hl => ?_, fun he hl => ?_, fun he => ?_⟩
  · simp [assemble, h, pySep, he, hl, List.append_assoc]
  · simp [assemble, h, pySep, he, hl, List.append_assoc]
  · simp [assemble, h, pySep, he, List.append_assoc]

/-- witness for `assemble_adjacent_sep`: two same-class blocks where the
second starts lowercase are joined with a single space. -/
theorem assemble_adjacent_sep_w :
    assemble [((0 : ℤ), ['A']), ((0 : ℤ), ['b'])] = ['A', ' ', 'b'] := by
  rw [(assemble_adjacent_sep 0 ['A'] 0 ['b'] [] (by decide)).1 rfl
    (by decide)]
  decide

/-! ### Deduplication lemmas -/

lemma splitNl_ne_nil (t : Str) : splitNl t ≠ [] := by
  induction t with
  | nil => simp [splitNl]
  | cons c rest ih =>
    by_cases hc : c = '\n'
    · simp [splitNl, hc]
    · rcases hsp : splitNl rest with _ | ⟨l, ls⟩
      · exact absurd hsp ih
      · simp [splitNl, hc, hsp]

lemma no_nl_mem_splitNl {t p : Str} (hp : p ∈ splitNl t) : '\n' ∉ p := by
  induction t generalizing p with
  | nil =>
    simp [splitNl] at hp
    subst hp; simp
  | cons c rest ih =>
    by_cases hc : c = '\n'
    · simp only [splitNl, if_pos hc] at hp
      rcases List.mem_cons.mp hp with rfl | hp'
      · simp
      · exact ih hp'
    · rcases hsp : splitNl rest with _ | ⟨l, ls⟩
      · exact absurd hsp (splitNl_ne_nil rest)
      · simp only [splitNl, if_neg hc, hsp] at hp
        rcases List.mem_cons.mp hp with rfl | hp'
        · have hl : '\n' ∉ l := ih (by rw [hsp]; exact List.mem_cons_self _ _)
          intro hmem
          rcases List.mem_cons.mp hmem with h' | h'
          · exact hc h'.symm
          · exact hl h'
        · exact ih (by rw [hsp]; exact List.mem_cons_of_mem _ hp')

lemma splitNl_of_no_nl {l : Str} (h : '\n' ∉ l) : splitNl l = [l] := by
  induction l with
  | nil => rfl
  | cons c rest ih =>
    have hc : ¬ c = '\n' := fun e => h (by rw [e]; exact List.mem_cons_self _ _)
    have hrest : '\n' ∉ rest := fun hm => h (List.mem_cons_of_mem _ hm)
    simp [splitNl, hc, ih hrest]

lemma splitNl_append_nl {l : Str} (t : Str) (h : '\n' ∉ l) :
    splitNl (l ++ '\n' :: t) = l :: splitNl t := by
  induction l with
  | nil => simp [splitNl]
  | cons c rest ih =>
    have hc : ¬ c = '\n' := fun e => h (by rw [e]; exact List.mem_cons_self _ _)
    have hrest : '\n' ∉ rest := fun hm => h (List.mem_cons_of_mem _ hm)
    simp [splitNl, hc, ih hrest]

lemma splitNl_joinNl {K : List Str} (hne : K ≠ [])
    (hnl : ∀ p ∈ K, '\n' ∉ p) : splitNl (joinNl K) = K := by
  induction K with
  | nil => exact absurd rfl hne
  | cons l ls ih =>
    cases ls with
    | nil => exact splitNl_of_no_nl (hnl l (by simp))
    | cons l₂ ls₂ =>
      have h1 : joinNl (l :: l₂ :: ls₂) = l ++ '\n' :: joinNl (l₂ :: ls₂) := rfl
      rw [h1, splitNl_append_nl _ (hnl l (by simp)),
        ih (by simp) (fun p hp => hnl p (List.mem_cons_of_mem _ hp))]

lemma firstIndex_le {α : Type} [DecidableEq α] {L : List α} {p : α} {j : ℕ}
    (h : L[j]? = some p) : firstIndex L p ≤ j := by
  induction L generalizing j with
  | nil => simp at h
  | cons q rest ih =>
    by_cases hq : q = p
    · simp [firstIndex, hq]
    · cases j with
      | zero =>
        rw [List.getElem?_cons_zero] at h
        exact absurd (Option.some.inj h) hq
      | succ j =>
        rw [List.getElem?_cons_succ] at h
        have := ih h
        simp [firstIndex, hq]
        omega

lemma firstIndex_getElem {α : Type} [DecidableEq α] {L : List α} {p : α}
    (h : p ∈ L) : L[firstIndex L p]? = some p := by
  induction L with
  | nil => simp at h
  | cons q rest ih =>
    by_cases hq : q = p
    · simp [firstIndex, hq]
    · have hmem : p ∈ rest := by
        rcases List.mem_cons.mp h with h' | h'
        · exact absurd h'.symm hq
        · exact h'
      simp [firstIndex, hq, ih hmem]

lemma nodup_getElem?_inj {α : Type} {l : List α} (h : l.Nodup) {i j : ℕ}
    {a : α} (hi : l[i]? = some a) (hj : l[j]? = some a) : i = j := by
  rcases List.getElem?_eq_some.mp hi with ⟨hil, hig⟩
  rcases List.getElem?_eq_some.mp hj with ⟨hjl, hjg⟩
  exact (List.Nodup.getElem_inj_iff h).mp (hig.trans hjg.symm)

lemma keepLine_iff {terms L : List Str} {i : ℕ} {p : Str} :
    keepLine terms L i p = true ↔
      (pyStrip p = [] ∨ pyStrip p ∈ terms ∨ firstIndex L p = i) := by
  simp [keepLine]

lemma enum_nodup {α : Type} (L : List α) : L.enum.Nodup := by
  have h1 : (L.enum.map Prod.fst).Nodup := by
    rw [List.enum_map_fst]; exact List.nodup_range _
  exact h1.of_map

lemma mem_removeDupLines_sub {terms L : List Str} {q : Str}
    (h : q ∈ removeDupLines terms L) : q ∈ L := by
  unfold removeDupLines at h
  rcases List.mem_map.mp h with ⟨ip, hip, rfl⟩
  exact List.getElem?_mem
    (List.mem_enum_iff_getElem?.mp (List.mem_filter.mp hip).1)

lemma removeDupLines_ne_nil {terms : List Str} {L : List Str} (h : L ≠ []) :
    removeDupLines terms L ≠ [] := by
  cases L with
  | nil => exact absurd rfl h
  | cons p rest =>
    have hk : keepLine terms (p :: rest) 0 p = true := by
      rw [keepLine_iff]
      refine Or.inr (Or.inr ?_)
      simp [firstIndex]
    have hmem : p ∈ removeDupLines terms (p :: rest) := by
      unfold removeDupLines
      exact List.mem_map.mpr ⟨(0, p),
        List.mem_filter.mpr
          ⟨List.mem_enum_iff_getElem?.mpr (by simp), hk⟩, rfl⟩
    exact fun hnil => by simp [hnil] at hmem

lemma removeDupLines_getElem_unique {terms L : List Str} {j j' : ℕ}
    {q : Str} (hq1 : ¬ pyStrip q = []) (hq2 : pyStrip q ∉ terms)
    (hj : (removeDupLines terms L)[j]? = some q)
    (hj' : (removeDupLines terms L)[j']? = some q) : j = j' := by
  unfold removeDupLines at hj hj'
  rw [List.getElem?_map] at hj hj'
  rcases Option.map_eq_some'.mp hj with ⟨ip, hip, hsnd⟩
  rcases Option.map_eq_some'.mp hj' with ⟨ip', hip', hsnd'⟩
  have hidx : ∀ {k : ℕ} {jp : ℕ × Str},
      (L.enum.filter fun x => keepLine terms L x.1 x.2)[k]? = some jp →
      jp.2 = q → jp.1 = firstIndex L q := by
    intro k jp hk hq
    have hmemf := List.getElem?_mem hk
    have hkeep := (List.mem_filter.mp hmemf).2
    rcases keepLine_iff.mp hkeep with h1 | h2 | h3
    · exact absurd (hq ▸ h1) hq1
    · exact absurd (hq ▸ h2) hq2
    · exact (hq ▸ h3).symm
  have hip1 : ip.1 = firstIndex L q := hidx hip hsnd
  have hip1' : ip'.1 = firstIndex L q := hidx hip' hsnd'
  have heq : ip = ip' := Prod.ext (hip1.trans hip1'.symm) (hsnd.trans hsnd'.symm)
  have hnd : (L.enum.filter fun x => keepLine terms L x.1 x.2).Nodup :=
    (enum_nodup L).filter _
  exact nodup_getElem?_inj hnd hip (heq ▸ hip')

lemma removeDupLines_keep_all {terms L : List Str} {j : ℕ} {q : Str}
    (h : (removeDupLines terms L)[j]? = some q) :
    keepLine terms (removeDupLines terms L) j q = true := by
  rw [keepLine_iff]
  by_cases h1 : pyStrip q = []
  · exact Or.inl h1
  by_cases h2 : pyStrip q ∈ terms
  · exact Or.inr (Or.inl h2)
  refine Or.inr (Or.inr ?_)
  have hmem : q ∈ removeDupLines terms L := List.getElem?_mem h
  exact removeDupLines_getElem_unique h1 h2 (firstIndex_getElem hmem) h

lemma removeDupLines_idem (terms L : List Str) :
    removeDupLines terms (removeDupLines terms L) =
      removeDupLines terms L := by
  set K := removeDupLines terms L with hK
  have hfilter : K.enum.filter (fun ip => keepLine terms K ip.1 ip.2) =
      K.enum := by
    apply List.filter_eq_self.mpr
    intro ip hip
    exact removeDupLines_keep_all (List.mem_enum_iff_getElem?.mp hip)
  show (K.enum.filter fun ip => keepLine terms K ip.1 ip.2).map Prod.snd = K
  rw [hfilter, List.enum_map_snd]

lemma removeDupText_idem (terms : List Str) (text : Str) :
    removeDupText terms (removeDupText terms text) =
      removeDupText terms text := by
  unfold removeDupText
  have hKne : removeDupLines terms (splitNl text) ≠ [] :=
    removeDupLines_ne_nil (splitNl_ne_nil text)
  have hKnl : ∀ p ∈ removeDupLines terms (splitNl text), '\n' ∉ p :=
    fun p hp => no_nl_mem_splitNl (mem_removeDupLines_sub hp)
  rw [splitNl_joinNl hKne hKnl, removeDupLines_idem]

/-- C9: `remove_duplicate_pargraphs` is idempotent — applying it twice
yields the same text as applying it once (for any term list; stated with
the module-level `all_section_terms`). -/
theorem remove_duplicate_pargraphs_idem (text : Str) :
    remove_duplicate_pargraphs (remove_duplicate_pargraphs text) =
      remove_duplicate_pargraphs text :=
  removeDupText_idem all_section_terms text

/-! ### extract_section lemmas -/

lemma buildCandidates_filter_map (nsp nip : RE) (text : Str)
    (ms : List (ℕ × ℕ)) :
    buildCandidates nsp nip text ms =
      (ms.filter fun m => !(discardCheck nsp nip text m)).map
        (spanOf nsp nip text) := by
  induction ms with
  | nil => rfl
  | cons m rest ih =>
    by_cases hd : discardCheck nsp nip text m
    · simp [buildCandidates, hd, List.filter_cons, ih]
    · simp [buildCandidates, hd, List.filter_cons, ih]

lemma foldl_maxlen_mem (rest : List Str) (s : Str) :
    (rest.foldl (fun acc x => if x.length > acc.length then x else acc)
      s) = s ∨
    (rest.foldl (fun acc x => if x.length > acc.length then x else acc)
      s) ∈ rest := by
  induction rest generalizing s with
  | nil => exact Or.inl rfl
  | cons x xs ih =>
    simp only [List.foldl_cons]
    rcases ih (if x.length > s.length then x else s) with h | h
    · rw [h]
      by_cases hx : x.length > s.length
      · exact Or.inr (by simp [hx])
      · exact Or.inl (by simp [hx])
    · exact Or.inr (List.mem_cons_of_mem _ h)

lemma foldl_maxlen_le (rest : List Str) (s : Str) :
    s.length ≤ (rest.foldl
      (fun acc x => if x.length > acc.length then x else acc) s).length ∧
    ∀ c ∈ rest, c.length ≤ (rest.foldl
      (fun acc x => if x.length > acc.length then x else acc) s).length := by
  induction rest generalizing s with
  | nil => simp
  | cons x xs ih =>
    simp only [List.foldl_cons]
    obtain ⟨h1, h2⟩ := ih (if x.length > s.length then x else s)
    have hsx : s.length ≤ (if x.length > s.length then x else s).length := by
      by_cases hx : x.length > s.length
      · rw [if_pos hx]; omega
      · rw [if_neg hx]
    have hxx : x.length ≤ (if x.length > s.length then x else s).length := by
      by_cases hx : x.length > s.length
      · rw [if_pos hx]
      · rw [if_neg hx]; omega
    refine ⟨le_trans hsx h1, fun c hc => ?_⟩
    rcases List.mem_cons.mp hc with rfl | hc'
    · exact le_trans hxx h1
    · exact h2 c hc'

lemma maxByLen_spec {l : List Str} (h : l ≠ []) :
    maxByLen l ∈ l ∧ ∀ c ∈ l, c.length ≤ (maxByLen l).length := by
  cases l with
  | nil => exact absurd rfl h
  | cons s rest =>
    obtain ⟨h1, h2⟩ := foldl_maxlen_le rest s
    constructor
    · rcases foldl_maxlen_mem rest s with h' | h'
      · rw [maxByLen, h']; exact List.mem_cons_self _ _
      · exact List.mem_cons_of_mem _ h'
    · intro c hc
      rcases List.mem_cons.mp hc with rfl | hc'
      · exact h1
      · exact h2 c hc'

lemma pyStrip_contained (s : Str) : pyStrip s <:+: s := by
  unfold pyStrip
  have h1 : s.dropWhile pyIsSpace <:+ s := List.dropWhile_suffix _
  have h2 : (s.dropWhile pyIsSpace).reverse.dropWhile pyIsSpace <:+
      (s.dropWhile pyIsSpace).reverse := List.dropWhile_suffix _
  have h3 := List.reverse_prefix.mpr h2
  rw [List.reverse_reverse] at h3
  exact h3.isInfix.trans h1.isInfix

lemma spanOf_contained (nsp nip : RE) (text : Str) (m : ℕ × ℕ) :
    spanOf nsp nip text m <:+: text := by
  unfold spanOf
  rcases resolveEnd nsp nip text m with _ | e
  · exact (pyStrip_contained _).trans (List.drop_suffix _ _).isInfix
  · exact (pyStrip_contained _).trans
      (((List.take_prefix _ _).isInfix).trans
        (List.drop_suffix _ _).isInfix)

lemma extract_section_contained (text : Str) (ts allTs : List Str) :
    extract_section text ts allTs = [] ∨
      extract_section text ts allTs <:+: text := by
  by_cases h : candidatesOf text ts allTs = []
  · left; simp [extract_section, h]
  · right
    have hmem : extract_section text ts allTs ∈
        candidatesOf text ts allTs := by
      have := (maxByLen_spec h).1
      simpa [extract_section, h] using this
    rw [candidatesOf, buildCandidates_filter_map] at hmem
    rcases List.mem_map.mp hmem with ⟨m, _, hs⟩
    exact hs ▸ spanOf_contained _ _ _ _

lemma pyFind_eq_some_decomp {hay pat : Str} {i : ℕ}
    (h : pyFind hay pat = some i) :
    hay = hay.take i ++ pat ++ hay.drop (i + pat.length) := by
  induction hay generalizing i with
  | nil =>
    rw [pyFind] at h
    by_cases hp : pat.isPrefixOf ([] : Str)
    · rw [if_pos hp] at h
      have hpat : pat = [] := List.prefix_nil.mp (List.isPrefixOf_iff_prefix.mp hp)
      obtain rfl : i = 0 := (Option.some.inj h).symm
      simp [hpat]
    · rw [if_neg hp] at h; exact absurd h (by simp)
  | cons c t ih =>
    rw [pyFind] at h
    by_cases hp : pat.isPrefixOf (c :: t)
    · rw [if_pos hp] at h
      obtain rfl : i = 0 := (Option.some.inj h).symm
      rcases List.isPrefixOf_iff_prefix.mp hp with ⟨rest, hrest⟩
      rw [List.take_zero, List.nil_append, Nat.zero_add, ← hrest,
        List.drop_left]
    · rw [if_neg hp] at h
      rcases Option.map_eq_some'.mp h with ⟨j, hj, rfl⟩
      have hdec := ih hj
      have h1 : (c :: t).take (j + 1) = c :: t.take j := rfl
      have h2 : (c :: t).drop (j + 1 + pat.length) =
          t.drop (j + pat.length) := by
        rw [Nat.add_right_comm]
        exact List.drop_succ_cons
      rw [h1, h2]
      exact congrArg (c :: ·) hdec

lemma pyFind_isSome_of_infix {hay pat : Str} (h : pat <:+: hay) :
    (pyFind hay pat).isSome := by
  induction hay with
  | nil =>
    have hpat : pat = [] := List.eq_nil_of_infix_nil h
    simp [pyFind, hpat, List.isPrefixOf_iff_prefix]
  | cons c t ih =>
    rw [pyFind]
    by_cases hp : pat.isPrefixOf (c :: t)
    · simp [hp]
    · have hinf : pat <:+: t := by
        rcases List.infix_cons_iff.mp h with hpre | hinf
        · exact absurd (List.isPrefixOf_iff_prefix.mpr hpre) hp
        · exact hinf
      rw [if_neg hp]
      simpa using ih hinf

/-- C5: the occurrence loop of `extract_section` contributes a candidate
span exactly for the occurrences that pass the degenerate-heading test:
the candidates are the spans of the non-discarded occurrences, so an
occurrence with a boundary heading of another known term starting within
the first 50 characters after it (the `discardCheck`) never yields a
candidate span. -/
theorem extract_section_discards (text : Str) (ts allTs : List Str) :
    candidatesOf text ts allTs =
      ((sectionMatches text ts).filter fun m =>
        !(discardCheck (nextSectionPattern (othersOf ts allTs))
          (nextInlinePattern (othersOf ts allTs)) text m)).map
        (spanOf (nextSectionPattern (othersOf ts allTs))
          (nextInlinePattern (othersOf ts allTs)) text) :=
  buildCandidates_filter_map _ _ _ _

/-- C4: `extract_section` returns the empty string as a value when no
occurrence survives, and otherwise returns a surviving candidate span of
maximal length. -/
theorem extract_section_longest (text : Str) (ts allTs : List Str) :
    (candidatesOf text ts allTs = [] →
      extract_section text ts allTs = []) ∧
    (candidatesOf text ts allTs ≠ [] →
      extract_section text ts allTs ∈ candidatesOf text ts allTs ∧
      ∀ c ∈ candidatesOf text ts allTs,
        c.length ≤ (extract_section text ts allTs).length) := by
  constructor
  · intro h; simp [extract_section, h]
  · intro h
    have hspec := maxByLen_spec h
    simpa [extract_section, h] using hspec

/-- witness for `extract_section_longest`: on a text with one Methods
heading the candidate list is nonempty and the extracted section is one
of its candidates. -/
theorem extract_section_longest_w :
    candidatesOf c4text METHODS_TERMS all_section_terms ≠ [] ∧
      extract_section c4text METHODS_TERMS all_section_terms ∈
        candidatesOf c4text METHODS_TERMS all_section_terms :=
  ⟨by decide,
    ((extract_section_longest c4text METHODS_TERMS
      all_section_terms).2 (by decide)).1⟩

/-- C7: `remove_references_section` either returns the text unchanged or
deletes exactly one contiguous occurrence of the located References span,
preserving all text before and after it. -/
theorem remove_references_frame (text : Str) :
    remove_references_section text = text ∨
    (extract_section text REFERENCES_TERMS all_section_terms ≠ [] ∧
     ∃ pre post : Str,
       text = pre ++
         extract_section text REFERENCES_TERMS all_section_terms ++ post ∧
       remove_references_section text = pre ++ post) := by
  by_cases h0 : extract_section text REFERENCES_TERMS all_section_terms = []
  · left
    simp [remove_references_section, h0]
  · have hinf : extract_section text REFERENCES_TERMS all_section_terms
        <:+: text :=
      (extract_section_contained text REFERENCES_TERMS
        all_section_terms).resolve_left h0
    have hsome := pyFind_isSome_of_infix hinf
    rcases hfind : pyFind text
        (extract_section text REFERENCES_TERMS all_section_terms)
      with _ | i
    · rw [hfind] at hsome; simp at hsome
    · right
      refine ⟨h0, text.take i,
        text.drop (i +
          (extract_section text REFERENCES_TERMS
            all_section_terms).length),
        pyFind_eq_some_decomp hfind, ?_⟩
      simp [remove_references_section, h0, hfind]

/-- C2 (code bug evidence): on a text whose Methods body repeats a line,
`extract_section` returns the section with the duplicate line intact —
it never calls `remove_duplicate_pargraphs`, although its docstring and
the spec say deduplication is its first step — while dedup-then-extract
would drop the repeated line. -/
theorem extract_section_no_dedup :
    extract_section c2text METHODS_TERMS all_section_terms =
      strL "Methods\nWe did X.\nWe did X." ∧
    remove_duplicate_pargraphs c2text = strL "\nMethods\nWe did X.\n" ∧
    extract_section (remove_duplicate_pargraphs c2text) METHODS_TERMS
        all_section_terms =
      strL "Methods\nWe did X." := by
  refine ⟨by decide, by decide, by decide⟩

end QuestPdf
